import Mathlib

/-!
# Verification of `Majorizer.py` (maj2min)

Shallow embedding of the core of `src/Majorizer.py`:

* the data model: a parsed MIDI document (`MidiFile`) made of tracks of
  events (`Event`), where a mido message is either a `note_on`, a
  `note_off`, or some other message modelled opaquely;
* `analyseKey`: the Krumhansl–Schmuckler key detection (lines 35–63);
* `convertRelative`: the relative-major transform (lines 65–75);
* `convertParallel`: the parallel-major transform (lines 77–97).

Python floats (the numpy dot products over the fixed key profiles and the
normalised histogram) are embedded as exact rationals `ℚ`; Python ints as
`ℤ`/`Nat`; the per-track `active` dict as a function `Nat → Option Nat`
updated pointwise; `defaultdict(int)` as a function `Nat → ℤ` that is `0`
everywhere initially.
-/

/-- Detected mode: the `"major"` / `"minor"` strings of the script. -/
inductive Mode where
  | major
  | minor
deriving DecidableEq, Repr

/-- A mido message as seen by the script: `note_on` and `note_off` carry a
delta `time`, a `note` (pitch) and a `velocity`; every other message kind is
opaque to the core and carries only its delta `time` plus an opaque payload. -/
inductive Event where
  | noteOn (time note velocity : Nat)
  | noteOff (time note velocity : Nat)
  | other (time : Nat) (payload : Nat)
deriving DecidableEq, Repr

/-- The delta time (`msg.time`) of any message. -/
def Event.time : Event → Nat
  | .noteOn t _ _ => t
  | .noteOff t _ _ => t
  | .other t _ => t

/-- A parsed MIDI file: tracks of messages, plus `ticks_per_beat` and the
format `type`, as carried by `mido.MidiFile`. -/
structure MidiFile where
  tracks : List (List Event)
  ticks_per_beat : Nat
  type : Nat
deriving DecidableEq, Repr

/-- `majorProfile` constant (line 25). -/
def majorProfile : List ℚ :=
  [6.35, 2.23, 3.48, 2.33, 4.38, 4.09, 2.52, 5.19, 2.39, 3.66, 2.29, 2.88]

/-- `minorProfile` constant (line 26). -/
def minorProfile : List ℚ :=
  [6.33, 2.68, 3.52, 5.38, 2.60, 3.53, 2.54, 4.75, 3.98, 2.69, 3.34, 3.17]

/-- The profile selected for a mode in the inner loop of line 58. -/
def profileOf : Mode → List ℚ
  | .major => majorProfile
  | .minor => minorProfile

/-- `np.roll(profile, i)` on a 12-element profile: entry `j` of the rolled
list is entry `(j - i) mod 12` of the original (line 59). -/
def roll12 (l : List ℚ) (i : Nat) : List ℚ :=
  (List.range 12).map fun j => l.getD ((j + 12 - i % 12) % 12) 0

/-- `np.dot` on two lists (line 60). -/
def dot (a b : List ℚ) : ℚ :=
  (List.zipWith (· * ·) a b).sum

/-- State threaded through the event loop of `analyseKey` (lines 36–51):
the `cpitchc` defaultdict, `totalDuration`, the per-track `active` dict and
the per-track `currentTime` clock. -/
structure AccState where
  cpitchc : Nat → ℤ
  totalDuration : ℤ
  active : Nat → Option Nat
  currentTime : Nat

/-- The note-off branch (lines 45–51): it fires for a `note_off`, or a
`note_on` of velocity 0, after the clock has been advanced.  With a recorded
onset it accumulates `currentTime - onset` into `cpitchc[note % 12]` and
`totalDuration` and deletes the onset; otherwise it does nothing. -/
def offEvent (s : AccState) (note : Nat) : AccState :=
  match s.active note with
  | some onset =>
      { s with
        cpitchc := Function.update s.cpitchc (note % 12)
          (s.cpitchc (note % 12) + ((s.currentTime : ℤ) - (onset : ℤ))),
        totalDuration := s.totalDuration + ((s.currentTime : ℤ) - (onset : ℤ)),
        active := Function.update s.active note none }
  | none => s

/-- One iteration of the message loop (lines 41–51): advance the clock by
`msg.time`; on a `note_on` with positive velocity record the onset; on a
`note_off` or a zero-velocity `note_on` run the note-off branch. -/
def stepMsg (s : AccState) (msg : Event) : AccState :=
  match msg with
  | .noteOn dt note vel =>
      if 0 < vel then
        { s with
          currentTime := s.currentTime + dt,
          active := Function.update s.active note (some (s.currentTime + dt)) }
      else
        offEvent { s with currentTime := s.currentTime + dt } note
  | .noteOff dt note _ =>
      offEvent { s with currentTime := s.currentTime + dt } note
  | .other dt _ => { s with currentTime := s.currentTime + dt }

/-- Processing one track (lines 38–51): `active` and `currentTime` start
fresh (`{}` and `0`), while `cpitchc` and `totalDuration` are carried over. -/
def processTrack (c : Nat → ℤ) (td : ℤ) (track : List Event) : AccState :=
  track.foldl stepMsg ⟨c, td, fun _ => none, 0⟩

/-- Folding the per-track processing over a list of tracks, carrying only
`cpitchc` and `totalDuration` from one track to the next (lines 38–51). -/
def accumTracks (acc : (Nat → ℤ) × ℤ) (l : List (List Event)) : (Nat → ℤ) × ℤ :=
  l.foldl
    (fun acc track =>
      ((processTrack acc.1 acc.2 track).cpitchc,
       (processTrack acc.1 acc.2 track).totalDuration))
    acc

/-- The whole accumulation loop over all tracks (lines 36–51), returning the
final `cpitchc` and `totalDuration`. -/
def accumulate (mid : MidiFile) : (Nat → ℤ) × ℤ :=
  accumTracks (fun _ => 0, 0) mid.tracks

/-- The final `totalDuration` of a document. -/
def totalDur (mid : MidiFile) : ℤ := (accumulate mid).2

/-- `pitchClassHistogram` (line 54): `cpitchc[i] / totalDuration` for
`i = 0..11`. -/
def histogram (mid : MidiFile) : List ℚ :=
  (List.range 12).map fun i =>
    ((accumulate mid).1 i : ℚ) / ((accumulate mid).2 : ℚ)

/-- `correlation` for one `(tonic, mode)` candidate (lines 59–60). -/
def score (h : List ℚ) (c : Nat × Mode) : ℚ :=
  dot h (roll12 (profileOf c.2) c.1)

/-- The candidate enumeration order of lines 57–58: tonic `0..11` outer,
major then minor inner. -/
def candidates : List (Nat × Mode) :=
  (List.range 12).flatMap fun i => [(i, Mode.major), (i, Mode.minor)]

/-- The best-so-far loop of lines 56–62: keep `(bestScore, detectedKey)`,
replacing it whenever a candidate scores strictly higher. -/
def pickFirstMax {α : Type} (f : α → ℚ) (init : ℚ × α) (l : List α) : ℚ × α :=
  l.foldl (fun acc c => if acc.1 < f c then (f c, c) else acc) init

/-- `analyseKey` (lines 35–63): accumulate durations; on `totalDuration == 0`
return `(0, "minor")`; otherwise score all 24 candidates against the
normalised histogram and return the detected key. -/
def analyseKey (mid : MidiFile) : Nat × Mode :=
  if (accumulate mid).2 = 0 then (0, Mode.minor)
  else
    (pickFirstMax (score (histogram mid)) ((-1 : ℚ), (0, Mode.minor)) candidates).2

/-- Per-message action of `convertRelative` (lines 70–72): note messages get
`note := min 127 (note + 3)`, everything else is copied unchanged. -/
def convertRelativeEvent : Event → Event
  | .noteOn dt n v => .noteOn dt (min 127 (n + 3)) v
  | .noteOff dt n v => .noteOff dt (min 127 (n + 3)) v
  | .other dt x => .other dt x

/-- `convertRelative` (lines 65–75): a new `MidiFile` with the same `type`
and `ticks_per_beat`, each track rebuilt message by message. -/
def convertRelative (mid : MidiFile) : MidiFile :=
  ⟨mid.tracks.map (List.map convertRelativeEvent), mid.ticks_per_beat, mid.type⟩

/-- The three pitch classes raised by the parallel-major transform
(lines 78–81): minor third, minor sixth, minor seventh above the tonic. -/
def minorDegrees (tonicpc : Nat) : List Nat :=
  [(tonicpc + 3) % 12, (tonicpc + 8) % 12, (tonicpc + 10) % 12]

/-- Per-message action of `convertParallel` (lines 86–95): a note message
whose pitch class is one of the three minor degrees gets
`note := min 127 (note + 1)`; everything else is copied unchanged. -/
def convertParallelEvent (tonicpc : Nat) : Event → Event
  | .noteOn dt n v =>
      if n % 12 ∈ minorDegrees tonicpc then .noteOn dt (min 127 (n + 1)) v
      else .noteOn dt n v
  | .noteOff dt n v =>
      if n % 12 ∈ minorDegrees tonicpc then .noteOff dt (min 127 (n + 1)) v
      else .noteOff dt n v
  | .other dt x => .other dt x

/-- `convertParallel` (lines 77–97): a new `MidiFile` with the same `type`
and `ticks_per_beat`, each track rebuilt message by message. -/
def convertParallel (mid : MidiFile) (tonicpc : Nat) : MidiFile :=
  ⟨mid.tracks.map (List.map (convertParallelEvent tonicpc)), mid.ticks_per_beat, mid.type⟩

/-- A message that only ever records an onset: a `note_on` with positive
velocity. -/
def onsetOnly : Event → Bool
  | .noteOn _ _ (_ + 1) => true
  | _ => false

/-- Every note pitch in the document is at most `k`. -/
def Event.pitchLE (k : Nat) : Event → Bool
  | .noteOn _ n _ => n ≤ k
  | .noteOff _ n _ => n ≤ k
  | .other _ _ => true

/-- Every note pitch in the document is at most `k`. -/
def MidiFile.pitchesLE (k : Nat) (mid : MidiFile) : Bool :=
  mid.tracks.all fun tr => tr.all (Event.pitchLE k)

/-- Transpose every note message up an octave. -/
def transposeEvent12 : Event → Event
  | .noteOn t n v => .noteOn t (n + 12) v
  | .noteOff t n v => .noteOff t (n + 12) v
  | .other t x => .other t x

/-- Transpose every note of a document up an octave. -/
def transposeDoc12 (mid : MidiFile) : MidiFile :=
  ⟨mid.tracks.map (List.map transposeEvent12), mid.ticks_per_beat, mid.type⟩

/-- Simulation relation between the loop state on a document and on its
octave-transposed copy: accumulators and clock agree, and the onset table
of the transposed run holds exactly the original onsets shifted up 12. -/
def octaveSim (s s2 : AccState) : Prop :=
  s2.cpitchc = s.cpitchc ∧ s2.totalDuration = s.totalDuration ∧
  s2.currentTime = s.currentTime ∧
  (∀ p, s2.active (p + 12) = s.active p) ∧
  (∀ q, q < 12 → s2.active q = none)

/-- Two events agree on everything except possibly the pitch: same kind,
same delta time, same velocity / payload. -/
def sameShape : Event → Event → Prop
  | .noteOn dt _ v, .noteOn dt2 _ v2 => dt = dt2 ∧ v = v2
  | .noteOff dt _ v, .noteOff dt2 _ v2 => dt = dt2 ∧ v = v2
  | .other dt x, .other dt2 x2 => dt = dt2 ∧ x = x2
  | _, _ => False

/-- A tiny example document: one track playing middle C for 480 ticks. -/
def exampleDoc : MidiFile := ⟨[[.noteOn 0 60 80, .noteOff 480 60 0]], 480, 1⟩

/-- The empty document. -/
def emptyDoc : MidiFile := ⟨[], 480, 1⟩

/-- An example loop state with one active onset: note 60 started at tick 3,
clock at tick 5. -/
def exampleState : AccState :=
  ⟨fun _ => 0, 0, Function.update (fun _ => none) 60 (some 3), 5⟩

/-- A fresh loop state: zero accumulators, no onsets, clock at 0. -/
def freshState : AccState := ⟨fun _ => 0, 0, fun _ => none, 0⟩

/-- A document that is not empty but in which no note ever completes:
a stray meta message and a note-on that is never released. -/
def silentDoc : MidiFile := ⟨[[.other 0 81, .noteOn 120 60 80]], 480, 0⟩

/-- Loop invariant of the accumulation: the histogram entries and the total
are nonnegative, and every recorded onset is no later than the clock. -/
def AccInv (s : AccState) : Prop :=
  (∀ i, 0 ≤ s.cpitchc i) ∧ 0 ≤ s.totalDuration ∧
    ∀ p t, s.active p = some t → t ≤ s.currentTime

/- ———————————————————————— theorems ———————————————————————— -/

theorem pickFirstMax_nil {α : Type} (f : α → ℚ) (init : ℚ × α) :
    pickFirstMax f init [] = init := rfl

theorem pickFirstMax_cons {α : Type} (f : α → ℚ) (init : ℚ × α) (a : α)
    (l : List α) :
    pickFirstMax f init (a :: l)
      = pickFirstMax f (if init.1 < f a then (f a, a) else init) l := rfl

/-- The best-so-far loop either keeps its initial value (when nothing beats
it) or returns the first candidate of maximal score: the score strictly
exceeds the initial one and every earlier candidate, and is at least every
candidate's score. -/
theorem pickFirstMax_spec {α : Type} (f : α → ℚ) (init : ℚ × α) (l : List α) :
    (pickFirstMax f init l = init ∧ ∀ c ∈ l, f c ≤ init.1) ∨
    (∃ l₁ l₂, l = l₁ ++ (pickFirstMax f init l).2 :: l₂ ∧
      (pickFirstMax f init l).1 = f (pickFirstMax f init l).2 ∧
      init.1 < (pickFirstMax f init l).1 ∧
      (∀ c ∈ l₁, f c < (pickFirstMax f init l).1) ∧
      (∀ c ∈ l, f c ≤ (pickFirstMax f init l).1)) := by
  induction l generalizing init with
  | nil => exact Or.inl ⟨rfl, by simp⟩
  | cons a l ih =>
    rw [pickFirstMax_cons]
    by_cases h : init.1 < f a
    · rw [if_pos h]
      rcases ih (f a, a) with ⟨heq, hle⟩ | ⟨l₁, l₂, hsplit, hval, hlt, hfirst, hall⟩
      · refine Or.inr ⟨[], l, ?_, ?_, ?_, ?_, ?_⟩
        · rw [heq]
          rfl
        · rw [heq]
        · rw [heq]; exact h
        · intro c hc; simp at hc
        · intro c hc
          rw [heq]
          rcases List.mem_cons.mp hc with rfl | hc
          · exact le_refl _
          · exact hle c hc
      · have hfa : f a < (pickFirstMax f (f a, a) l).1 := hlt
        refine Or.inr ⟨a :: l₁, l₂, ?_, hval, ?_, ?_, ?_⟩
        · rw [List.cons_append]
          exact congrArg (List.cons a) hsplit
        · exact lt_trans h hfa
        · intro c hc
          rcases List.mem_cons.mp hc with rfl | hc
          · exact hfa
          · exact hfirst c hc
        · intro c hc
          rcases List.mem_cons.mp hc with rfl | hc
          · exact le_of_lt hfa
          · exact hall c hc
    · rw [if_neg h]
      rcases ih init with ⟨heq, hle⟩ | ⟨l₁, l₂, hsplit, hval, hlt, hfirst, hall⟩
      · refine Or.inl ⟨heq, ?_⟩
        intro c hc
        rcases List.mem_cons.mp hc with rfl | hc
        · exact not_lt.mp h
        · exact hle c hc
      · refine Or.inr ⟨a :: l₁, l₂, ?_, hval, hlt, ?_, ?_⟩
        · rw [List.cons_append]
          exact congrArg (List.cons a) hsplit
        · intro c hc
          rcases List.mem_cons.mp hc with rfl | hc
          · exact lt_of_le_of_lt (not_lt.mp h) hlt
          · exact hfirst c hc
        · intro c hc
          rcases List.mem_cons.mp hc with rfl | hc
          · exact le_of_lt (lt_of_le_of_lt (not_lt.mp h) hlt)
          · exact hall c hc

theorem offEvent_none {s : AccState} {n : Nat} (hact : s.active n = none) :
    offEvent s n = s := by
  simp only [offEvent, hact]

theorem offEvent_some {s : AccState} {n onset : Nat}
    (hact : s.active n = some onset) :
    offEvent s n =
      { s with
        cpitchc := Function.update s.cpitchc (n % 12)
          (s.cpitchc (n % 12) + ((s.currentTime : ℤ) - (onset : ℤ))),
        totalDuration := s.totalDuration + ((s.currentTime : ℤ) - (onset : ℤ)),
        active := Function.update s.active n none } := by
  simp only [offEvent, hact]

theorem offEvent_inv {s : AccState} (hs : AccInv s) (n : Nat) :
    AccInv (offEvent s n) := by
  obtain ⟨hc, ht, ha⟩ := hs
  cases hact : s.active n with
  | none =>
    rw [offEvent_none hact]
    exact ⟨hc, ht, ha⟩
  | some onset =>
    have honset : onset ≤ s.currentTime := ha n onset hact
    have hdur : 0 ≤ (s.currentTime : ℤ) - (onset : ℤ) := by omega
    rw [offEvent_some hact]
    refine ⟨?_, add_nonneg ht hdur, ?_⟩
    · intro i
      show 0 ≤ Function.update s.cpitchc (n % 12)
        (s.cpitchc (n % 12) + ((s.currentTime : ℤ) - (onset : ℤ))) i
      by_cases hi : i = n % 12
      · subst hi
        rw [Function.update_same]
        exact add_nonneg (hc _) hdur
      · rw [Function.update_noteq hi]
        exact hc i
    · intro p t hp
      have hp2 : Function.update s.active n none p = some t := hp
      show t ≤ s.currentTime
      by_cases hpn : p = n
      · subst hpn
        rw [Function.update_same] at hp2
        exact Option.noConfusion hp2
      · rw [Function.update_noteq hpn] at hp2
        exact ha p t hp2

theorem stepMsg_inv {s : AccState} (hs : AccInv s) (e : Event) :
    AccInv (stepMsg s e) := by
  obtain ⟨hc, ht, ha⟩ := hs
  cases e with
  | noteOn dt n v =>
    by_cases hv : 0 < v
    · have heq : stepMsg s (.noteOn dt n v) =
          { s with
            currentTime := s.currentTime + dt,
            active := Function.update s.active n (some (s.currentTime + dt)) } := by
        simp only [stepMsg, if_pos hv]
      rw [heq]
      refine ⟨hc, ht, ?_⟩
      intro p t hp
      have hp2 : Function.update s.active n (some (s.currentTime + dt)) p = some t := hp
      show t ≤ s.currentTime + dt
      by_cases hpn : p = n
      · subst hpn
        rw [Function.update_same] at hp2
        cases hp2
        exact le_refl _
      · rw [Function.update_noteq hpn] at hp2
        exact le_trans (ha p t hp2) (Nat.le_add_right _ _)
    · have heq : stepMsg s (.noteOn dt n v) =
          offEvent { s with currentTime := s.currentTime + dt } n := by
        simp only [stepMsg, if_neg hv]
      rw [heq]
      exact offEvent_inv (s := { s with currentTime := s.currentTime + dt })
        ⟨hc, ht, fun p t hp => le_trans (ha p t hp) (Nat.le_add_right _ _)⟩ n
  | noteOff dt n v =>
    show AccInv (offEvent { s with currentTime := s.currentTime + dt } n)
    exact offEvent_inv (s := { s with currentTime := s.currentTime + dt })
      ⟨hc, ht, fun p t hp => le_trans (ha p t hp) (Nat.le_add_right _ _)⟩ n
  | other dt x =>
    exact ⟨hc, ht, fun p t hp => le_trans (ha p t hp) (Nat.le_add_right _ _)⟩

theorem foldl_stepMsg_inv {s : AccState} (hs : AccInv s) (l : List Event) :
    AccInv (l.foldl stepMsg s) := by
  induction l generalizing s with
  | nil => exact hs
  | cons e l ih => exact ih (stepMsg_inv hs e)

theorem processTrack_inv {c : Nat → ℤ} {td : ℤ}
    (hc : ∀ i, 0 ≤ c i) (ht : 0 ≤ td) (tr : List Event) :
    AccInv (processTrack c td tr) := by
  refine foldl_stepMsg_inv ⟨hc, ht, ?_⟩ tr
  intro p t hp
  exact absurd hp (Option.noConfusion)

theorem accumTracks_nonneg {acc : (Nat → ℤ) × ℤ}
    (hc : ∀ i, 0 ≤ acc.1 i) (ht : 0 ≤ acc.2) (l : List (List Event)) :
    (∀ i, 0 ≤ (accumTracks acc l).1 i) ∧ 0 ≤ (accumTracks acc l).2 := by
  induction l generalizing acc with
  | nil => exact ⟨hc, ht⟩
  | cons tr l ih =>
    have h := processTrack_inv hc ht tr
    exact ih h.1 h.2.1

theorem accumulate_nonneg (mid : MidiFile) :
    (∀ i, 0 ≤ (accumulate mid).1 i) ∧ 0 ≤ (accumulate mid).2 :=
  accumTracks_nonneg (fun _ => le_refl 0) (le_refl 0) mid.tracks

theorem majorProfile_nonneg : ∀ x ∈ majorProfile, 0 ≤ x := by
  intro x hx
  fin_cases hx <;> norm_num

theorem minorProfile_nonneg : ∀ x ∈ minorProfile, 0 ≤ x := by
  intro x hx
  fin_cases hx <;> norm_num

theorem profileOf_nonneg (m : Mode) : ∀ x ∈ profileOf m, 0 ≤ x := by
  cases m
  · exact majorProfile_nonneg
  · exact minorProfile_nonneg

theorem getD_nonneg (l : List ℚ) (hl : ∀ x ∈ l, 0 ≤ x) (n : Nat) :
    0 ≤ l.getD n 0 := by
  induction l generalizing n with
  | nil => simp [List.getD]
  | cons a l ih =>
    cases n with
    | zero => exact hl a (List.mem_cons_self a l)
    | succ n =>
      simp only [List.getD_cons_succ]
      exact ih (fun x hx => hl x (List.mem_cons_of_mem a hx)) n

theorem roll12_nonneg (l : List ℚ) (hl : ∀ x ∈ l, 0 ≤ x) (i : Nat) :
    ∀ x ∈ roll12 l i, 0 ≤ x := by
  intro x hx
  simp only [roll12, List.mem_map, List.mem_range] at hx
  obtain ⟨j, _, rfl⟩ := hx
  exact getD_nonneg l hl _

theorem dot_nonneg (a b : List ℚ) (ha : ∀ x ∈ a, 0 ≤ x)
    (hb : ∀ x ∈ b, 0 ≤ x) : 0 ≤ dot a b := by
  induction a generalizing b with
  | nil => simp [dot]
  | cons x a ih =>
    cases b with
    | nil => simp [dot]
    | cons y b =>
      have hexp : dot (x :: a) (y :: b) = x * y + dot a b := by
        simp [dot]
      rw [hexp]
      refine add_nonneg
        (mul_nonneg (ha x (List.mem_cons_self x a)) (hb y (List.mem_cons_self y b)))
        (ih b (fun z hz => ha z (List.mem_cons_of_mem x hz))
          (fun z hz => hb z (List.mem_cons_of_mem y hz)))

theorem histogram_nonneg (mid : MidiFile) : ∀ x ∈ histogram mid, 0 ≤ x := by
  intro x hx
  simp only [histogram, List.mem_map, List.mem_range] at hx
  obtain ⟨i, _, rfl⟩ := hx
  obtain ⟨hc, ht⟩ := accumulate_nonneg mid
  exact div_nonneg (by exact_mod_cast hc i) (by exact_mod_cast ht)

theorem score_nonneg (h : List ℚ) (hh : ∀ x ∈ h, 0 ≤ x) (c : Nat × Mode) :
    0 ≤ score h c :=
  dot_nonneg _ _ hh (roll12_nonneg _ (profileOf_nonneg c.2) c.1)

/-- `np.roll(profile, t)` puts the profile value of position `k` at position
`(k + t) mod 12`. -/
theorem roll12_getD (l : List ℚ) (t : Nat) (ht : t < 12) (k : Nat)
    (hk : k < 12) : (roll12 l t).getD ((k + t) % 12) 0 = l.getD k 0 := by
  have hm : (k + t) % 12 < 12 := Nat.mod_lt _ (by norm_num)
  have hmap : (roll12 l t).getD ((k + t) % 12) 0
      = l.getD (((k + t) % 12 + 12 - t % 12) % 12) 0 := by
    simp only [roll12]
    rw [List.getD_eq_getElem?_getD, List.getElem?_map, List.getElem?_range hm]
    rfl
  rw [hmap]
  congr 1
  omega

theorem mem_of_split {α : Type} {a : α} {l l₁ l₂ : List α}
    (h : l = l₁ ++ a :: l₂) : a ∈ l := by
  rw [h]
  exact List.mem_append_right _ (List.mem_cons_self _ _)

theorem analyseKey_eq_pick {mid : MidiFile} (hne : (accumulate mid).2 ≠ 0) :
    analyseKey mid
      = (pickFirstMax (score (histogram mid)) ((-1 : ℚ), (0, Mode.minor))
          candidates).2 := by
  rw [analyseKey, if_neg hne]

set_option maxRecDepth 8000 in
/-- C1: with nonzero total duration, `analyseKey` scores every
`(tonic, mode)` candidate as the dot product of the normalised pitch-class
histogram with the profile rotated so that the value at position `k` moves
to position `(k + t) mod 12`, and returns the first candidate of strictly
greatest score in the enumeration order tonic `0..11` outer, major before
minor inner (`candidates`): its score is at least every candidate's score
and strictly above every earlier candidate's. -/
theorem analyseKey_first_max (mid : MidiFile) (hne : totalDur mid ≠ 0) :
    (∀ (l : List ℚ) (t k : Nat), t < 12 → k < 12 →
        (roll12 l t).getD ((k + t) % 12) 0 = l.getD k 0) ∧
    analyseKey mid ∈ candidates ∧
    (∀ c ∈ candidates,
        score (histogram mid) c ≤ score (histogram mid) (analyseKey mid)) ∧
    ∃ l₁ l₂, candidates = l₁ ++ analyseKey mid :: l₂ ∧
      ∀ c ∈ l₁,
        score (histogram mid) c < score (histogram mid) (analyseKey mid) := by
  have hne2 : (accumulate mid).2 ≠ 0 := hne
  have hkey := analyseKey_eq_pick hne2
  have hh := histogram_nonneg mid
  rcases pickFirstMax_spec (score (histogram mid)) ((-1 : ℚ), (0, Mode.minor))
      candidates with ⟨heq, hle⟩ | ⟨l₁, l₂, hsplit, hval, hlt, hfirst, hall⟩
  · exfalso
    have h0 : ((0, Mode.major) : Nat × Mode) ∈ candidates := by decide
    have hle0 : score (histogram mid) (0, Mode.major) ≤ -1 := hle _ h0
    have hge0 : 0 ≤ score (histogram mid) (0, Mode.major) :=
      score_nonneg _ hh _
    linarith
  · refine ⟨fun l t k ht hk => roll12_getD l t ht k hk, ?_, ?_, ?_⟩
    · rw [hkey]
      exact mem_of_split hsplit
    · intro c hc
      rw [hkey, ← hval]
      exact hall c hc
    · refine ⟨l₁, l₂, ?_, ?_⟩
      · rw [hkey]
        exact hsplit
      · intro c hc
        rw [hkey, ← hval]
        exact hfirst c hc

set_option maxRecDepth 8000 in
/-- Witness for C1 at a one-note document. -/
theorem analyseKey_first_max_wit :
    totalDur exampleDoc ≠ 0 ∧
    (∀ c ∈ candidates,
        score (histogram exampleDoc) c
          ≤ score (histogram exampleDoc) (analyseKey exampleDoc)) :=
  ⟨by decide, (analyseKey_first_max exampleDoc (by decide)).2.2.1⟩

set_option maxRecDepth 8000 in
/-- C8: `analyseKey` is a pure function, so repeated calls on the same
document agree, and its result is a tonic pitch class in `[0, 11]` together
with a mode that is major or minor. -/
theorem analyseKey_deterministic (mid : MidiFile) :
    analyseKey mid = analyseKey mid ∧
    (analyseKey mid).1 ≤ 11 ∧
    ((analyseKey mid).2 = Mode.major ∨ (analyseKey mid).2 = Mode.minor) := by
  refine ⟨rfl, ?_, ?_⟩
  · by_cases h : (accumulate mid).2 = 0
    · rw [analyseKey, if_pos h]
      decide
    · rw [analyseKey_eq_pick h]
      rcases pickFirstMax_spec (score (histogram mid)) ((-1 : ℚ), (0, Mode.minor))
          candidates with ⟨heq, _⟩ | ⟨l₁, l₂, hsplit, _⟩
      · rw [heq]
        decide
      · have hb : ∀ c ∈ candidates, c.1 ≤ 11 := by decide
        exact hb _ (mem_of_split hsplit)
  · cases hm : (analyseKey mid).2 with
    | major => exact Or.inl rfl
    | minor => exact Or.inr rfl

theorem offEvent_currentTime (s : AccState) (n : Nat) :
    (offEvent s n).currentTime = s.currentTime := by
  cases hact : s.active n with
  | none => rw [offEvent_none hact]
  | some onset => rw [offEvent_some hact]

/-- C5: on zero total duration — no note ever sounded with positive
duration — `analyseKey` returns the degenerate default `(0, minor)`; being
a total function, it always terminates with a result. -/
theorem analyseKey_degenerate (mid : MidiFile) (h : totalDur mid = 0) :
    analyseKey mid = (0, Mode.minor) := by
  have h2 : (accumulate mid).2 = 0 := h
  rw [analyseKey, if_pos h2]

/-- Witness for C5 at a silent (never-completing) document. -/
theorem analyseKey_degenerate_wit :
    totalDur silentDoc = 0 ∧ analyseKey silentDoc = (0, Mode.minor) :=
  ⟨by decide, analyseKey_degenerate silentDoc (by decide)⟩

theorem accumTracks_append (acc : (Nat → ℤ) × ℤ) (l₁ l₂ : List (List Event)) :
    accumTracks acc (l₁ ++ l₂) = accumTracks (accumTracks acc l₁) l₂ := by
  simp [accumTracks, List.foldl_append]

/-- C2: semantics of the event walk.  Every message advances the per-track
clock by its delta time.  A `note_on` with positive velocity records
`note ↦ currentClock` (overwriting) and touches neither accumulator.  A
`note_off` — at any velocity — for a pitch with a recorded onset adds
`currentClock - onsetClock` to the global accumulator at `note mod 12` and
to the global `totalDuration`, then clears that onset; a zero-velocity
`note_on` behaves identically.  Each track is processed from a fresh state
(clock 0, no onsets) while `cpitchc` and `totalDuration` are carried
across tracks. -/
theorem stepMsg_semantics (s : AccState) (dt n v onset : Nat) :
    ((stepMsg s (.noteOn dt n v)).currentTime = s.currentTime + dt ∧
     (stepMsg s (.noteOff dt n v)).currentTime = s.currentTime + dt ∧
     (stepMsg s (.other dt n)).currentTime = s.currentTime + dt) ∧
    (0 < v →
      (stepMsg s (.noteOn dt n v)).active n = some (s.currentTime + dt) ∧
      (∀ m, m ≠ n → (stepMsg s (.noteOn dt n v)).active m = s.active m) ∧
      (stepMsg s (.noteOn dt n v)).cpitchc = s.cpitchc ∧
      (stepMsg s (.noteOn dt n v)).totalDuration = s.totalDuration) ∧
    (s.active n = some onset →
      (stepMsg s (.noteOff dt n v)).cpitchc (n % 12)
          = s.cpitchc (n % 12) + (((s.currentTime + dt : Nat) : ℤ) - (onset : ℤ)) ∧
      (∀ i, i ≠ n % 12 → (stepMsg s (.noteOff dt n v)).cpitchc i = s.cpitchc i) ∧
      (stepMsg s (.noteOff dt n v)).totalDuration
          = s.totalDuration + (((s.currentTime + dt : Nat) : ℤ) - (onset : ℤ)) ∧
      (stepMsg s (.noteOff dt n v)).active n = none ∧
      (∀ m, m ≠ n → (stepMsg s (.noteOff dt n v)).active m = s.active m) ∧
      stepMsg s (.noteOn dt n 0) = stepMsg s (.noteOff dt n v)) ∧
    (∀ (c : Nat → ℤ) (td : ℤ) (tr : List Event),
      processTrack c td tr = tr.foldl stepMsg ⟨c, td, fun _ => none, 0⟩) ∧
    (∀ (pre : List (List Event)) (tr : List Event) (ts ft : Nat),
      accumulate ⟨pre ++ [tr], ts, ft⟩ =
        ((processTrack (accumulate ⟨pre, ts, ft⟩).1
            (accumulate ⟨pre, ts, ft⟩).2 tr).cpitchc,
         (processTrack (accumulate ⟨pre, ts, ft⟩).1
            (accumulate ⟨pre, ts, ft⟩).2 tr).totalDuration)) := by
  refine ⟨⟨?_, ?_, rfl⟩, fun hv => ?_, fun hon => ?_, fun c td tr => rfl, ?_⟩
  · by_cases hv : 0 < v
    · simp only [stepMsg, if_pos hv]
    · simp only [stepMsg, if_neg hv]
      exact offEvent_currentTime _ n
  · exact offEvent_currentTime _ n
  · have heq : stepMsg s (.noteOn dt n v) =
        { s with
          currentTime := s.currentTime + dt,
          active := Function.update s.active n (some (s.currentTime + dt)) } := by
      simp only [stepMsg, if_pos hv]
    rw [heq]
    refine ⟨Function.update_same _ _ _, fun m hm => Function.update_noteq hm _ _, rfl, rfl⟩
  · have hon2 : ({ s with currentTime := s.currentTime + dt } : AccState).active n
        = some onset := hon
    have heq : stepMsg s (.noteOff dt n v) =
        { s with
          currentTime := s.currentTime + dt,
          cpitchc := Function.update s.cpitchc (n % 12)
            (s.cpitchc (n % 12) + (((s.currentTime + dt : Nat) : ℤ) - (onset : ℤ))),
          totalDuration := s.totalDuration
            + (((s.currentTime + dt : Nat) : ℤ) - (onset : ℤ)),
          active := Function.update s.active n none } := by
      show offEvent { s with currentTime := s.currentTime + dt } n = _
      rw [offEvent_some hon2]
    rw [heq]
    refine ⟨Function.update_same _ _ _, fun i hi => Function.update_noteq hi _ _,
      rfl, Function.update_same _ _ _, fun m hm => Function.update_noteq hm _ _, ?_⟩
    rw [← heq]
    rfl
  · intro pre tr ts ft
    show accumTracks (fun _ => 0, 0) (pre ++ [tr]) = _
    rw [accumTracks_append]
    rfl

/-- Witness for C2: a positive-velocity onset and a matched note-off at the
example state (note 60 active since tick 3, clock at 5). -/
theorem stepMsg_semantics_wit :
    (0 < 80 ∧ exampleState.active 60 = some 3) ∧
    (stepMsg exampleState (.noteOn 7 60 80)).active 60
        = some (exampleState.currentTime + 7) ∧
    (stepMsg exampleState (.noteOff 7 60 64)).totalDuration
        = exampleState.totalDuration
          + (((exampleState.currentTime + 7 : Nat) : ℤ) - ((3 : Nat) : ℤ)) :=
  ⟨⟨by decide, by decide⟩,
   ((stepMsg_semantics exampleState 7 60 80 3).2.1 (by decide)).1,
   ((stepMsg_semantics exampleState 7 60 64 3).2.2.1 (by decide)).2.2.1⟩

/-- C7: a note-off — or zero-velocity note-on — for a pitch with no
recorded onset in that track is silently ignored: the step only advances
the clock, leaving both accumulators and the onset table untouched. -/
theorem unmatched_noteOff_ignored (s : AccState) (dt n v : Nat)
    (h : s.active n = none) :
    stepMsg s (.noteOff dt n v) = { s with currentTime := s.currentTime + dt } ∧
    stepMsg s (.noteOn dt n 0) = { s with currentTime := s.currentTime + dt } := by
  have h2 : ({ s with currentTime := s.currentTime + dt } : AccState).active n
      = none := h
  constructor
  · show offEvent { s with currentTime := s.currentTime + dt } n = _
    rw [offEvent_none h2]
  · show offEvent { s with currentTime := s.currentTime + dt } n = _
    rw [offEvent_none h2]

/-- Witness for C7: an unmatched note-off on a fresh state. -/
theorem unmatched_noteOff_ignored_wit :
    freshState.active 60 = none ∧
    stepMsg freshState (.noteOff 5 60 0)
      = { freshState with currentTime := freshState.currentTime + 5 } :=
  ⟨rfl, (unmatched_noteOff_ignored freshState 5 60 0 rfl).1⟩

theorem analyseKey_congr {m1 m2 : MidiFile} (h : accumulate m1 = accumulate m2) :
    analyseKey m1 = analyseKey m2 := by
  unfold analyseKey histogram
  rw [h]

theorem foldl_onsetOnly (suf : List Event)
    (h : ∀ e ∈ suf, onsetOnly e = true) (s : AccState) :
    (suf.foldl stepMsg s).cpitchc = s.cpitchc ∧
    (suf.foldl stepMsg s).totalDuration = s.totalDuration := by
  induction suf generalizing s with
  | nil => exact ⟨rfl, rfl⟩
  | cons e l ih =>
    have he := h e (List.mem_cons_self e l)
    have hrest : ∀ x ∈ l, onsetOnly x = true :=
      fun x hx => h x (List.mem_cons_of_mem e hx)
    cases e with
    | noteOn dt n v =>
      cases v with
      | zero => simp [onsetOnly] at he
      | succ v =>
        have hstep : stepMsg s (.noteOn dt n (v + 1)) =
            { s with
              currentTime := s.currentTime + dt,
              active := Function.update s.active n
                (some (s.currentTime + dt)) } := by
          simp only [stepMsg, if_pos (Nat.succ_pos v)]
        obtain ⟨h1, h2⟩ := ih hrest
          { s with
            currentTime := s.currentTime + dt,
            active := Function.update s.active n (some (s.currentTime + dt)) }
        constructor
        · show (l.foldl stepMsg (stepMsg s (.noteOn dt n (v + 1)))).cpitchc
              = s.cpitchc
          rw [hstep]
          exact h1
        · show (l.foldl stepMsg (stepMsg s (.noteOn dt n (v + 1)))).totalDuration
              = s.totalDuration
          rw [hstep]
          exact h2
    | noteOff dt n v => simp [onsetOnly] at he
    | other dt x => simp [onsetOnly] at he

/-- C9: `note_on` onsets still unmatched when their track ends are simply
discarded: appending any batch of positive-velocity `note_on` messages to
the end of a track changes neither the pitch-class accumulator nor
`totalDuration`, and leaves the detected key unchanged. -/
theorem trailing_noteOns_ignored (pre post : List (List Event))
    (tr suf : List Event) (ts ft : Nat)
    (h : ∀ e ∈ suf, onsetOnly e = true) :
    accumulate ⟨pre ++ (tr ++ suf) :: post, ts, ft⟩
      = accumulate ⟨pre ++ tr :: post, ts, ft⟩ ∧
    analyseKey ⟨pre ++ (tr ++ suf) :: post, ts, ft⟩
      = analyseKey ⟨pre ++ tr :: post, ts, ft⟩ := by
  have htr : ∀ (c : Nat → ℤ) (td : ℤ),
      (processTrack c td (tr ++ suf)).cpitchc = (processTrack c td tr).cpitchc ∧
      (processTrack c td (tr ++ suf)).totalDuration
        = (processTrack c td tr).totalDuration := by
    intro c td
    unfold processTrack
    rw [List.foldl_append]
    exact foldl_onsetOnly suf h _
  have hsingle : ∀ a : (Nat → ℤ) × ℤ,
      accumTracks a [tr ++ suf] = accumTracks a [tr] := by
    intro a
    show ((processTrack a.1 a.2 (tr ++ suf)).cpitchc,
          (processTrack a.1 a.2 (tr ++ suf)).totalDuration)
        = ((processTrack a.1 a.2 tr).cpitchc,
           (processTrack a.1 a.2 tr).totalDuration)
    obtain ⟨h1, h2⟩ := htr a.1 a.2
    rw [h1, h2]
  have hacc : accumulate ⟨pre ++ (tr ++ suf) :: post, ts, ft⟩
      = accumulate ⟨pre ++ tr :: post, ts, ft⟩ := by
    show accumTracks (fun _ => 0, 0) (pre ++ (tr ++ suf) :: post)
        = accumTracks (fun _ => 0, 0) (pre ++ tr :: post)
    rw [show (tr ++ suf) :: post = [tr ++ suf] ++ post from rfl,
        show tr :: post = [tr] ++ post from rfl,
        ← List.append_assoc, ← List.append_assoc,
        accumTracks_append _ (pre ++ [tr ++ suf]) post,
        accumTracks_append _ (pre ++ [tr]) post,
        accumTracks_append _ pre [tr ++ suf],
        accumTracks_append _ pre [tr],
        hsingle]
  exact ⟨hacc, analyseKey_congr hacc⟩

/-- Witness for C9: a trailing unmatched `note_on` after a completed note. -/
theorem trailing_noteOns_ignored_wit :
    (∀ e ∈ [Event.noteOn 0 64 100], onsetOnly e = true) ∧
    analyseKey ⟨[[Event.noteOn 0 60 80, Event.noteOff 480 60 0]
        ++ [Event.noteOn 0 64 100]], 480, 1⟩
      = analyseKey ⟨[[Event.noteOn 0 60 80, Event.noteOff 480 60 0]], 480, 1⟩ :=
  ⟨by decide,
   (trailing_noteOns_ignored [] [] [Event.noteOn 0 60 80, Event.noteOff 480 60 0]
      [Event.noteOn 0 64 100] 480 1 (by decide)).2⟩

theorem offEvent_octave {s s2 : AccState} (hr : octaveSim s s2) (n : Nat) :
    octaveSim (offEvent s n) (offEvent s2 (n + 12)) := by
  obtain ⟨hc, ht, hclk, hact, hlow⟩ := hr
  have hkey : s2.active (n + 12) = s.active n := hact n
  cases hsn : s.active n with
  | none =>
    rw [offEvent_none hsn, offEvent_none (by rw [hkey, hsn])]
    exact ⟨hc, ht, hclk, hact, hlow⟩
  | some onset =>
    rw [offEvent_some hsn,
        offEvent_some (show s2.active (n + 12) = some onset by rw [hkey, hsn])]
    refine ⟨?_, ?_, hclk, ?_, ?_⟩
    · show Function.update s2.cpitchc ((n + 12) % 12)
          (s2.cpitchc ((n + 12) % 12) + ((s2.currentTime : ℤ) - (onset : ℤ)))
        = Function.update s.cpitchc (n % 12)
          (s.cpitchc (n % 12) + ((s.currentTime : ℤ) - (onset : ℤ)))
      rw [Nat.add_mod_right, hc, hclk]
    · show s2.totalDuration + ((s2.currentTime : ℤ) - (onset : ℤ))
        = s.totalDuration + ((s.currentTime : ℤ) - (onset : ℤ))
      rw [ht, hclk]
    · intro p
      show Function.update s2.active (n + 12) none (p + 12)
          = Function.update s.active n none p
      by_cases hpn : p = n
      · subst hpn
        rw [Function.update_same, Function.update_same]
      · rw [Function.update_noteq (by omega : p + 12 ≠ n + 12),
            Function.update_noteq hpn]
        exact hact p
    · intro q hq
      show Function.update s2.active (n + 12) none q = none
      rw [Function.update_noteq (by omega : q ≠ n + 12)]
      exact hlow q hq

theorem stepMsg_octave {s s2 : AccState} (hr : octaveSim s s2) (e : Event) :
    octaveSim (stepMsg s e) (stepMsg s2 (transposeEvent12 e)) := by
  obtain ⟨hc, ht, hclk, hact, hlow⟩ := hr
  cases e with
  | noteOn dt n v =>
    by_cases hv : 0 < v
    · have h1 : stepMsg s (.noteOn dt n v) =
          { s with
            currentTime := s.currentTime + dt,
            active := Function.update s.active n (some (s.currentTime + dt)) } := by
        simp only [stepMsg, if_pos hv]
      have h2 : stepMsg s2 (transposeEvent12 (.noteOn dt n v)) =
          { s2 with
            currentTime := s2.currentTime + dt,
            active := Function.update s2.active (n + 12)
              (some (s2.currentTime + dt)) } := by
        simp only [transposeEvent12, stepMsg, if_pos hv]
      rw [h1, h2]
      refine ⟨hc, ht, by rw [hclk], ?_, ?_⟩
      · intro p
        show Function.update s2.active (n + 12) (some (s2.currentTime + dt)) (p + 12)
            = Function.update s.active n (some (s.currentTime + dt)) p
        by_cases hpn : p = n
        · subst hpn
          rw [Function.update_same, Function.update_same, hclk]
        · rw [Function.update_noteq (by omega : p + 12 ≠ n + 12),
              Function.update_noteq hpn]
          exact hact p
      · intro q hq
        show Function.update s2.active (n + 12) (some (s2.currentTime + dt)) q = none
        rw [Function.update_noteq (by omega : q ≠ n + 12)]
        exact hlow q hq
    · have h1 : stepMsg s (.noteOn dt n v) =
          offEvent { s with currentTime := s.currentTime + dt } n := by
        simp only [stepMsg, if_neg hv]
      have h2 : stepMsg s2 (transposeEvent12 (.noteOn dt n v)) =
          offEvent { s2 with currentTime := s2.currentTime + dt } (n + 12) := by
        simp only [transposeEvent12, stepMsg, if_neg hv]
      rw [h1, h2]
      exact @offEvent_octave { s with currentTime := s.currentTime + dt }
        { s2 with currentTime := s2.currentTime + dt }
        ⟨hc, ht, by show s2.currentTime + dt = s.currentTime + dt; rw [hclk],
         hact, hlow⟩ n
  | noteOff dt n v =>
    show octaveSim (offEvent { s with currentTime := s.currentTime + dt } n)
      (offEvent { s2 with currentTime := s2.currentTime + dt } (n + 12))
    exact @offEvent_octave { s with currentTime := s.currentTime + dt }
      { s2 with currentTime := s2.currentTime + dt }
      ⟨hc, ht, by show s2.currentTime + dt = s.currentTime + dt; rw [hclk],
       hact, hlow⟩ n
  | other dt x =>
    exact ⟨hc, ht, by show s2.currentTime + dt = s.currentTime + dt; rw [hclk],
      hact, hlow⟩

theorem foldl_octave {s s2 : AccState} (hr : octaveSim s s2) (tr : List Event) :
    octaveSim (tr.foldl stepMsg s) ((tr.map transposeEvent12).foldl stepMsg s2) := by
  induction tr generalizing s s2 with
  | nil => exact hr
  | cons e l ih => exact ih (stepMsg_octave hr e)

theorem accumTracks_octave (l : List (List Event)) (acc : (Nat → ℤ) × ℤ) :
    accumTracks acc (l.map (List.map transposeEvent12)) = accumTracks acc l := by
  induction l generalizing acc with
  | nil => rfl
  | cons tr l ih =>
    have hinit : octaveSim (⟨acc.1, acc.2, fun _ => none, 0⟩ : AccState)
        ⟨acc.1, acc.2, fun _ => none, 0⟩ :=
      ⟨rfl, rfl, rfl, fun _ => rfl, fun _ _ => rfl⟩
    obtain ⟨h1, h2, _, _, _⟩ := foldl_octave hinit tr
    show accumTracks ((processTrack acc.1 acc.2 (tr.map transposeEvent12)).cpitchc,
        (processTrack acc.1 acc.2 (tr.map transposeEvent12)).totalDuration)
        (l.map (List.map transposeEvent12))
      = accumTracks ((processTrack acc.1 acc.2 tr).cpitchc,
          (processTrack acc.1 acc.2 tr).totalDuration) l
    rw [show (processTrack acc.1 acc.2 (tr.map transposeEvent12)).cpitchc
          = (processTrack acc.1 acc.2 tr).cpitchc from h1,
        show (processTrack acc.1 acc.2 (tr.map transposeEvent12)).totalDuration
          = (processTrack acc.1 acc.2 tr).totalDuration from h2,
        ih]

/-- C10: `analyseKey` sees note pitches only through their pitch class:
transposing every note of a document up an octave (well inside the pitch
range when every pitch is at most 115) leaves the detected
`(tonic, mode)` unchanged. -/
theorem analyseKey_octave_invariant (mid : MidiFile)
    (_hbound : mid.pitchesLE 115 = true) :
    analyseKey (transposeDoc12 mid) = analyseKey mid :=
  analyseKey_congr (show accumulate (transposeDoc12 mid) = accumulate mid from
    accumTracks_octave mid.tracks (fun _ => 0, 0))

/-- Witness for C10 at the one-note example document. -/
theorem analyseKey_octave_invariant_wit :
    exampleDoc.pitchesLE 115 = true ∧
    analyseKey (transposeDoc12 exampleDoc) = analyseKey exampleDoc :=
  ⟨by decide, analyseKey_octave_invariant exampleDoc (by decide)⟩

/-- C4: the relative-major transform raises every note pitch by exactly 3
semitones clamped at 127 — any pitch above 124 clamps to 127 — and keeps
delta time, velocity, non-note messages and the track structure unchanged. -/
theorem convertRelative_spec (mid : MidiFile) (dt n v x : Nat) :
    (convertRelative mid).tracks = mid.tracks.map (List.map convertRelativeEvent) ∧
    (convertRelative mid).ticks_per_beat = mid.ticks_per_beat ∧
    (convertRelative mid).type = mid.type ∧
    convertRelativeEvent (.noteOn dt n v) = .noteOn dt (min 127 (n + 3)) v ∧
    convertRelativeEvent (.noteOff dt n v) = .noteOff dt (min 127 (n + 3)) v ∧
    convertRelativeEvent (.other dt x) = .other dt x ∧
    (124 < n → min 127 (n + 3) = 127) := by
  refine ⟨rfl, rfl, rfl, rfl, rfl, rfl, fun h => ?_⟩
  omega

/-- Witness for C4: a pitch above 124 clamps to 127. -/
theorem convertRelative_spec_wit :
    124 < 126 ∧ min 127 (126 + 3) = 127 :=
  ⟨by decide, (convertRelative_spec emptyDoc 0 126 0 0).2.2.2.2.2.2 (by decide)⟩

/-- C3: the parallel-major transform raises a note's pitch — by exactly one
semitone, clamped at 127 — precisely when its pitch class is one of
`(tonic+3) mod 12`, `(tonic+8) mod 12`, `(tonic+10) mod 12`; every other
note and every non-note message is copied unchanged, and the track
structure is rebuilt by mapping this per-message action. -/
theorem convertParallel_spec (mid : MidiFile) (tonicpc dt n v x : Nat) :
    (convertParallel mid tonicpc).tracks
        = mid.tracks.map (List.map (convertParallelEvent tonicpc)) ∧
    (convertParallel mid tonicpc).ticks_per_beat = mid.ticks_per_beat ∧
    (convertParallel mid tonicpc).type = mid.type ∧
    (n % 12 ∈ minorDegrees tonicpc →
      convertParallelEvent tonicpc (.noteOn dt n v)
          = .noteOn dt (min 127 (n + 1)) v ∧
      convertParallelEvent tonicpc (.noteOff dt n v)
          = .noteOff dt (min 127 (n + 1)) v) ∧
    (n % 12 ∉ minorDegrees tonicpc →
      convertParallelEvent tonicpc (.noteOn dt n v) = .noteOn dt n v ∧
      convertParallelEvent tonicpc (.noteOff dt n v) = .noteOff dt n v) ∧
    convertParallelEvent tonicpc (.other dt x) = .other dt x := by
  refine ⟨rfl, rfl, rfl, fun h => ⟨?_, ?_⟩, fun h => ⟨?_, ?_⟩, rfl⟩ <;>
    simp [convertParallelEvent, h]

/-- Witness for C3: with tonic 0, pitch 63 (class 3) is raised to 64 and
pitch 60 (class 0) is untouched. -/
theorem convertParallel_spec_wit :
    (63 % 12 ∈ minorDegrees 0 ∧ 60 % 12 ∉ minorDegrees 0) ∧
    convertParallelEvent 0 (.noteOn 0 63 80) = .noteOn 0 (min 127 (63 + 1)) 80 ∧
    convertParallelEvent 0 (.noteOn 10 60 90) = .noteOn 10 60 90 :=
  ⟨⟨by decide, by decide⟩,
   ((convertParallel_spec emptyDoc 0 0 63 80 0).2.2.2.1 (by decide)).1,
   ((convertParallel_spec emptyDoc 0 10 60 90 0).2.2.2.2.1 (by decide)).1⟩

theorem sameShape_relative (e : Event) : sameShape e (convertRelativeEvent e) := by
  cases e <;> exact ⟨rfl, rfl⟩

theorem sameShape_parallel (tonicpc : Nat) (e : Event) :
    sameShape e (convertParallelEvent tonicpc e) := by
  cases e with
  | noteOn dt n v =>
    by_cases h : n % 12 ∈ minorDegrees tonicpc <;>
      simp [convertParallelEvent, h, sameShape]
  | noteOff dt n v =>
    by_cases h : n % 12 ∈ minorDegrees tonicpc <;>
      simp [convertParallelEvent, h, sameShape]
  | other dt x => exact ⟨rfl, rfl⟩

theorem forall₂_map_self {α : Type} (r : α → α → Prop) (f : α → α)
    (h : ∀ a, r a (f a)) : ∀ l : List α, List.Forall₂ r l (l.map f)
  | [] => List.Forall₂.nil
  | a :: l => List.Forall₂.cons (h a) (forall₂_map_self r f h l)

/-- C6: both transforms preserve `ticks_per_beat`, the format `type`, the
number and order of tracks, the number and order of events per track, and
every event's delta time, velocity and payload — only note pitches may
differ (`sameShape`). -/
theorem transforms_frame (mid : MidiFile) (tonicpc : Nat) :
    (convertRelative mid).ticks_per_beat = mid.ticks_per_beat ∧
    (convertRelative mid).type = mid.type ∧
    (convertRelative mid).tracks.length = mid.tracks.length ∧
    List.Forall₂ (fun tr tr2 => tr.length = tr2.length ∧ List.Forall₂ sameShape tr tr2)
      mid.tracks (convertRelative mid).tracks ∧
    (convertParallel mid tonicpc).ticks_per_beat = mid.ticks_per_beat ∧
    (convertParallel mid tonicpc).type = mid.type ∧
    (convertParallel mid tonicpc).tracks.length = mid.tracks.length ∧
    List.Forall₂ (fun tr tr2 => tr.length = tr2.length ∧ List.Forall₂ sameShape tr tr2)
      mid.tracks (convertParallel mid tonicpc).tracks := by
  refine ⟨rfl, rfl, ?_, ?_, rfl, rfl, ?_, ?_⟩
  · simp [convertRelative]
  · exact forall₂_map_self _ (List.map convertRelativeEvent)
      (fun tr => ⟨(List.length_map tr convertRelativeEvent).symm,
        forall₂_map_self sameShape convertRelativeEvent sameShape_relative tr⟩)
      mid.tracks
  · simp [convertParallel]
  · exact forall₂_map_self _ (List.map (convertParallelEvent tonicpc))
      (fun tr => ⟨(List.length_map tr (convertParallelEvent tonicpc)).symm,
        forall₂_map_self sameShape (convertParallelEvent tonicpc)
          (sameShape_parallel tonicpc) tr⟩)
      mid.tracks
